import Mathlib

/-!
# Normalized T3 oscillator — shallow embedding

Verification development for the TradeLab `normalized_t3` indicator.
The repository ships a Python wrapper (`tradelab/indicators/normalized_t3/wrapper.py`)
that delegates to a compiled Cython core; the `.pyx` source of the core is not part
of the checked-out sources, so the numeric pipeline (EmaStage, T3Cascade,
SlidingExtrema, Normalizer, Pipeline) is modelled from the specification's
component contracts.  Samples are modelled as exact rationals (`ℚ`), the standard
idealisation of the IEEE-754 doubles the code operates on.
-/

/-- Modelled from the spec: a single first-order exponential moving-average
filter (§4.1).  The Cython source is missing from the repository; the state is
one scalar register holding the previous output (`none` before the first call,
so the first call seeds with the first observed value). -/
structure EmaStage where
  alpha : ℚ
  prev : Option ℚ
deriving Repr, DecidableEq

/-- Modelled from the spec: `alpha = 2/(t3_period+1)`; no sample seen yet. -/
def EmaStage.init (t3_period : ℤ) : EmaStage :=
  { alpha := 2 / ((t3_period : ℚ) + 1), prev := none }

/-- Modelled from the spec: `update(x) -> y` with
`y = alpha*x + (1-alpha)*prev_y`, or `y = x` on the first call (§4.1). -/
def EmaStage.update (s : EmaStage) (x : ℚ) : ℚ × EmaStage :=
  match s.prev with
  | none => (x, { s with prev := some x })
  | some p =>
      let y := s.alpha * x + (1 - s.alpha) * p
      (y, { s with prev := some y })

/-- Modelled from the spec: six chained `EmaStage`s plus the four fixed
combination coefficients, computed once at construction from the volume
factor (§4.2). -/
structure T3Cascade where
  c1 : ℚ
  c2 : ℚ
  c3 : ℚ
  c4 : ℚ
  s1 : EmaStage
  s2 : EmaStage
  s3 : EmaStage
  s4 : EmaStage
  s5 : EmaStage
  s6 : EmaStage
deriving Repr, DecidableEq

/-- Modelled from the spec: coefficient polynomials in `vf` (§4.2). -/
def T3Cascade.init (t3_period : ℤ) (vf : ℚ) : T3Cascade :=
  { c1 := -(vf ^ 3)
    c2 := 3 * vf ^ 2 + 3 * vf ^ 3
    c3 := -6 * vf ^ 2 - 3 * vf - 3 * vf ^ 3
    c4 := 1 + 3 * vf + vf ^ 3 + 3 * vf ^ 2
    s1 := EmaStage.init t3_period
    s2 := EmaStage.init t3_period
    s3 := EmaStage.init t3_period
    s4 := EmaStage.init t3_period
    s5 := EmaStage.init t3_period
    s6 := EmaStage.init t3_period }

/-- Modelled from the spec: `e1=EMA(x)`, `e2=EMA(e1)`, …, `e6=EMA(e5)`,
`T3 = c1*e6 + c2*e5 + c3*e4 + c4*e3` (§4.2). -/
def T3Cascade.update (c : T3Cascade) (x : ℚ) : ℚ × T3Cascade :=
  let r1 := c.s1.update x
  let r2 := c.s2.update r1.1
  let r3 := c.s3.update r2.1
  let r4 := c.s4.update r3.1
  let r5 := c.s5.update r4.1
  let r6 := c.s6.update r5.1
  (c.c1 * r6.1 + c.c2 * r5.1 + c.c3 * r4.1 + c.c4 * r3.1,
   { c with s1 := r1.2, s2 := r2.2, s3 := r3.2, s4 := r4.2, s5 := r5.2, s6 := r6.2 })

/-- Batch run of the cascade over a series, one output per input sample. -/
def T3Cascade.run (c : T3Cascade) : List ℚ → List ℚ
  | [] => []
  | x :: rest =>
      let r := c.update x
      r.1 :: r.2.run rest

/-- Modelled from the spec: the monotonic-deque update for the minimum side
(§4.3).  Entries dominated by the newly arriving value (`back.value ≥ value`)
are evicted from the back, the new `(index, value)` pair is appended, and
entries whose position falls outside the trailing window are evicted from the
front. -/
def minStep (period n : ℕ) (v : ℚ) (d : List (ℕ × ℚ)) : List (ℕ × ℚ) :=
  ((d.reverse.dropWhile (fun e => decide (v ≤ e.2))).reverse ++ [(n, v)]).dropWhile
    (fun e => decide (e.1 + period ≤ n))

/-- Modelled from the spec: the monotonic-deque update for the maximum side
(§4.3), the mirror image of `minStep` (`back.value ≤ value` entries evicted). -/
def maxStep (period n : ℕ) (v : ℚ) (d : List (ℕ × ℚ)) : List (ℕ × ℚ) :=
  ((d.reverse.dropWhile (fun e => decide (e.2 ≤ v))).reverse ++ [(n, v)]).dropWhile
    (fun e => decide (e.1 + period ≤ n))

/-- Modelled from the spec: running minimum/maximum of the filtered stream over
a trailing window, kept as two monotonic double-ended sequences of
(position, value) pairs (§4.3). -/
structure SlidingExtrema where
  period : ℕ
  minDeque : List (ℕ × ℚ)
  maxDeque : List (ℕ × ℚ)
deriving Repr, DecidableEq

/-- Modelled from the spec: empty deques at construction. -/
def SlidingExtrema.init (period : ℕ) : SlidingExtrema :=
  { period := period, minDeque := [], maxDeque := [] }

/-- Modelled from the spec: `update(index, value) -> (current_min, current_max)`
(§4.3); the fronts of the two deques hold the current extrema. -/
def SlidingExtrema.update (s : SlidingExtrema) (index : ℕ) (value : ℚ) :
    (ℚ × ℚ) × SlidingExtrema :=
  let md := minStep s.period index value s.minDeque
  let xd := maxStep s.period index value s.maxDeque
  (((md.headD (0, 0)).2, (xd.headD (0, 0)).2),
   { s with minDeque := md, maxDeque := xd })

/-- Feed a list of values with consecutive indices starting at `index`,
collecting the (min, max) answer after each update. -/
def SlidingExtrema.run (s : SlidingExtrema) (index : ℕ) : List ℚ → List (ℚ × ℚ)
  | [] => []
  | v :: rest =>
      let r := s.update index v
      r.1 :: r.2.run (index + 1) rest

/-- Minimum of a list of rationals (`0` for the empty list, which never
arises: the naive reference only evaluates it on non-empty windows). -/
def listMin : List ℚ → ℚ
  | [] => 0
  | a :: t => t.foldl min a

/-- Maximum of a list of rationals (`0` for the empty list). -/
def listMax : List ℚ → ℚ
  | [] => 0
  | a :: t => t.foldl max a

/-- The naive reference for the sliding extrema: after each update the history
grows by one value and the answer is the minimum and maximum of the last
`min(period, samples_seen)` values, recomputed from scratch (§4.3, §8).
`h` is the already-processed history. -/
def naiveAux (period : ℕ) (h : List ℚ) : List ℚ → List (ℚ × ℚ)
  | [] => []
  | v :: rest =>
      let h' := h ++ [v]
      let w := h'.drop (h'.length - period)
      (listMin w, listMax w) :: naiveAux period h' rest

/-- Naive sliding-extrema reference over a whole series, empty history start. -/
def naiveExtrema (period : ℕ) (vs : List ℚ) : List (ℚ × ℚ) :=
  naiveAux period [] vs

/-- Modelled from the spec: the Normalizer (§4.4):
`out = (value - min) / (max - min)` when `max > min`, `out = 0.5` when the
window is degenerate. -/
def Normalizer.compute (value mn mx : ℚ) : ℚ :=
  if mn < mx then (value - mn) / (mx - mn) else 1 / 2

/-- Modelled from the spec: per-series pipeline state — sample counter, the
cascade registers and the extrema window (§4.5). -/
structure PipelineState where
  count : ℕ
  cascade : T3Cascade
  extrema : SlidingExtrema
deriving Repr, DecidableEq

/-- Modelled from the spec: initial pipeline state for validated parameters. -/
def PipelineState.init (period : ℕ) (t3_period : ℤ) (vf : ℚ) : PipelineState :=
  { count := 0
    cascade := T3Cascade.init t3_period vf
    extrema := SlidingExtrema.init period }

/-- Modelled from the spec: one incremental step — raw sample → T3Cascade →
filtered value → SlidingExtrema → (min, max) → Normalizer → output sample
(§2, §4.5). -/
def PipelineState.step (st : PipelineState) (x : ℚ) : ℚ × PipelineState :=
  let rc := st.cascade.update x
  let re := st.extrema.update st.count rc.1
  (Normalizer.compute rc.1 re.1.1 re.1.2,
   { count := st.count + 1, cascade := rc.2, extrema := re.2 })

/-- Modelled from the spec: batch mode is a loop over the incremental mode
(§4.5). -/
def PipelineState.runList (st : PipelineState) : List ℚ → List ℚ
  | [] => []
  | x :: rest =>
      let r := st.step x
      r.1 :: r.2.runList rest

/-- The error taxonomy of the spec (§7): the only error is InvalidParameter. -/
inductive TError where
  | invalidParameter
deriving Repr, DecidableEq

/-- Parameter constraints (§3): `period > 0`, `t3_period > 0`,
`volume_factor ∈ [0,1]`. -/
def validParams (period t3_period : ℤ) (volume_factor : ℚ) : Prop :=
  0 < period ∧ 0 < t3_period ∧ 0 ≤ volume_factor ∧ volume_factor ≤ 1

instance (period t3_period : ℤ) (volume_factor : ℚ) :
    Decidable (validParams period t3_period volume_factor) := by
  unfold validParams
  infer_instance

/-- Modelled from the spec: the compiled Cython entry point
`_NORMALIZED_T3_cython` — validate the parameters before processing any
sample, then drive the whole series through the pipeline (§4.5, §7). -/
def NORMALIZED_T3_cython (src : List ℚ) (period t3_period : ℤ)
    (volume_factor : ℚ) : Except TError (List ℚ) :=
  if validParams period t3_period volume_factor then
    Except.ok ((PipelineState.init period.toNat t3_period volume_factor).runList src)
  else
    Except.error TError.invalidParameter

/-- The public wrapper `NORMALIZED_T3` of
`tradelab/indicators/normalized_t3/wrapper.py`: it returns
`_NORMALIZED_T3_cython(src, period, t3_period, volume_factor)` unchanged, with
defaults `period=200`, `t3_period=2`, `volume_factor=0.7`. -/
def NORMALIZED_T3 (src : List ℚ) (period : ℤ := 200) (t3_period : ℤ := 2)
    (volume_factor : ℚ := 7 / 10) : Except TError (List ℚ) :=
  NORMALIZED_T3_cython src period t3_period volume_factor

/-! ### General list lemmas used for the monotonic deques -/

/-- Popping from the back of a list while the predicate holds, on a list along
which the predicate is monotone (once true, true ever after), is taking the
front while the predicate fails. -/
theorem dropWhile_rev_eq_takeWhile {α : Type} (p : α → Bool) :
    ∀ l : List α, l.Pairwise (fun a b => p a = true → p b = true) →
      (l.reverse.dropWhile p).reverse = l.takeWhile (fun a => !p a)
  | [], _ => rfl
  | a :: t, hpw => by
      obtain ⟨ha, ht⟩ := List.pairwise_cons.mp hpw
      by_cases hpa : p a = true
      · have hall : ∀ x ∈ (a :: t).reverse, p x = true := by
          intro x hx
          rw [List.mem_reverse] at hx
          rcases List.mem_cons.mp hx with rfl | hx
          · exact hpa
          · exact ha x hx hpa
        rw [List.dropWhile_eq_nil_iff.mpr hall]
        simp [List.takeWhile_cons, hpa]
      · rw [List.reverse_cons, List.dropWhile_append]
        by_cases hemp : (t.reverse.dropWhile p).isEmpty
        · have hallt : ∀ x ∈ t, p x = true := by
            intro x hx
            have := List.dropWhile_eq_nil_iff.mp (List.isEmpty_iff.mp hemp)
            exact this x (List.mem_reverse.mpr hx)
          have htw : t.takeWhile (fun a => !p a) = [] := by
            cases t with
            | nil => rfl
            | cons b t' =>
                rw [List.takeWhile_cons, hallt b (List.mem_cons_self b t')]
                simp
          simp [hemp, List.dropWhile_cons, hpa, List.takeWhile_cons, htw]
        · simp only [hemp, if_neg, Bool.false_eq_true, not_false_iff]
          rw [List.reverse_append, List.reverse_cons, List.reverse_nil, List.nil_append,
            List.singleton_append, dropWhile_rev_eq_takeWhile p t ht,
            List.takeWhile_cons]
          simp [hpa]

/-- An element failing a predicate that is monotone along the list survives
`takeWhile` of the negated predicate. -/
theorem mem_takeWhile_not_of_mono {α : Type} (p : α → Bool) :
    ∀ l : List α, l.Pairwise (fun a b => p a = true → p b = true) →
      ∀ e ∈ l, p e = false → e ∈ l.takeWhile (fun a => !p a)
  | a :: t, hpw, e, he, hpe => by
      obtain ⟨ha, ht⟩ := List.pairwise_cons.mp hpw
      rcases List.mem_cons.mp he with rfl | he'
      · rw [List.takeWhile_cons, hpe]
        simp
      · have hpa : p a = false := by
          cases hq : p a with
          | false => rfl
          | true => exact absurd (ha e he' hq) (by simp [hpe])
        rw [List.takeWhile_cons, hpa]
        simpa using List.mem_cons_of_mem a (mem_takeWhile_not_of_mono p t ht e he' hpe)

/-- An element failing a predicate that is antitone along the list (true only
on a downward-closed prefix) survives `dropWhile`. -/
theorem mem_dropWhile_of_anti {α : Type} (q : α → Bool) :
    ∀ l : List α, l.Pairwise (fun a b => q b = true → q a = true) →
      ∀ e ∈ l, q e = false → e ∈ l.dropWhile q
  | a :: t, hpw, e, he, hqe => by
      obtain ⟨ha, ht⟩ := List.pairwise_cons.mp hpw
      by_cases hqa : q a = true
      · have he' : e ∈ t := by
          rcases List.mem_cons.mp he with rfl | he'
          · exact absurd hqa (by simp [hqe])
          · exact he'
        rw [List.dropWhile_cons, if_pos hqa]
        exact mem_dropWhile_of_anti q t ht e he' hqe
      · rw [List.dropWhile_cons, if_neg hqa]
        exact he

/-- After `dropWhile` with a predicate that is antitone along the list, no
element of the remainder satisfies the predicate. -/
theorem forall_not_of_dropWhile_anti {α : Type} (q : α → Bool) (l : List α)
    (hpw : l.Pairwise (fun a b => q b = true → q a = true)) :
    ∀ e ∈ l.dropWhile q, q e = false := by
  have hpw' : (l.dropWhile q).Pairwise (fun a b => q b = true → q a = true) :=
    hpw.sublist (List.dropWhile_sublist q)
  intro e he
  cases hd : l.dropWhile q with
  | nil => rw [hd] at he; exact absurd he (List.not_mem_nil e)
  | cons h₀ tl =>
      have hh₀ : q h₀ = false := by
        have h2 := List.head?_dropWhile_not q l
        rw [hd] at h2
        simpa using h2
      rw [hd] at he hpw'
      rcases List.mem_cons.mp he with rfl | he'
      · exact hh₀
      · obtain ⟨hrel, _⟩ := List.pairwise_cons.mp hpw'
        cases hq : q e with
        | false => rfl
        | true => exact absurd (hrel e he' hq) (by simp [hh₀])

/-! ### Minimum / maximum of a list -/

theorem foldl_min_le_init : ∀ (t : List ℚ) (a : ℚ), t.foldl min a ≤ a
  | [], _ => le_refl _
  | b :: t, a => le_trans (foldl_min_le_init t (min a b)) (min_le_left a b)

theorem foldl_min_le_mem : ∀ (t : List ℚ) (a x : ℚ), x ∈ t → t.foldl min a ≤ x
  | b :: t, a, x, hx => by
      rcases List.mem_cons.mp hx with rfl | hx'
      · exact le_trans (foldl_min_le_init t (min a x)) (min_le_right a x)
      · exact foldl_min_le_mem t (min a b) x hx'

theorem foldl_min_mem : ∀ (t : List ℚ) (a : ℚ), t.foldl min a = a ∨ t.foldl min a ∈ t
  | [], a => Or.inl rfl
  | b :: t, a => by
      rcases foldl_min_mem t (min a b) with h | h
      · rcases min_choice a b with hm | hm
        · exact Or.inl (by rw [List.foldl_cons, h, hm])
        · exact Or.inr (by rw [List.foldl_cons, h, hm]; exact List.mem_cons_self b t)
      · exact Or.inr (List.mem_cons_of_mem b h)

theorem listMin_le {l : List ℚ} {x : ℚ} (hx : x ∈ l) : listMin l ≤ x := by
  cases l with
  | nil => exact absurd hx (List.not_mem_nil x)
  | cons a t =>
      rcases List.mem_cons.mp hx with rfl | hx'
      · exact foldl_min_le_init t x
      · exact foldl_min_le_mem t a x hx'

theorem listMin_mem {l : List ℚ} (hne : l ≠ []) : listMin l ∈ l := by
  cases l with
  | nil => exact absurd rfl hne
  | cons a t =>
      rcases foldl_min_mem t a with h | h
      · show t.foldl min a ∈ a :: t
        rw [h]
        exact List.mem_cons_self a t
      · exact List.mem_cons_of_mem a h

theorem listMin_eq_of {l : List ℚ} {a : ℚ} (ha : a ∈ l) (hle : ∀ x ∈ l, a ≤ x) :
    listMin l = a :=
  le_antisymm (listMin_le ha) (hle _ (listMin_mem (List.ne_nil_of_mem ha)))

theorem foldl_max_init_le : ∀ (t : List ℚ) (a : ℚ), a ≤ t.foldl max a
  | [], _ => le_refl _
  | b :: t, a => le_trans (le_max_left a b) (foldl_max_init_le t (max a b))

theorem foldl_max_mem_le : ∀ (t : List ℚ) (a x : ℚ), x ∈ t → x ≤ t.foldl max a
  | b :: t, a, x, hx => by
      rcases List.mem_cons.mp hx with rfl | hx'
      · exact le_trans (le_max_right a x) (foldl_max_init_le t (max a x))
      · exact foldl_max_mem_le t (max a b) x hx'

theorem foldl_max_mem : ∀ (t : List ℚ) (a : ℚ), t.foldl max a = a ∨ t.foldl max a ∈ t
  | [], a => Or.inl rfl
  | b :: t, a => by
      rcases foldl_max_mem t (max a b) with h | h
      · rcases max_choice a b with hm | hm
        · exact Or.inl (by rw [List.foldl_cons, h, hm])
        · exact Or.inr (by rw [List.foldl_cons, h, hm]; exact List.mem_cons_self b t)
      · exact Or.inr (List.mem_cons_of_mem b h)

theorem le_listMax {l : List ℚ} {x : ℚ} (hx : x ∈ l) : x ≤ listMax l := by
  cases l with
  | nil => exact absurd hx (List.not_mem_nil x)
  | cons a t =>
      rcases List.mem_cons.mp hx with rfl | hx'
      · exact foldl_max_init_le t x
      · exact foldl_max_mem_le t a x hx'

theorem listMax_mem {l : List ℚ} (hne : l ≠ []) : listMax l ∈ l := by
  cases l with
  | nil => exact absurd rfl hne
  | cons a t =>
      rcases foldl_max_mem t a with h | h
      · show t.foldl max a ∈ a :: t
        rw [h]
        exact List.mem_cons_self a t
      · exact List.mem_cons_of_mem a h

theorem listMax_eq_of {l : List ℚ} {a : ℚ} (ha : a ∈ l) (hle : ∀ x ∈ l, x ≤ a) :
    listMax l = a :=
  le_antisymm (hle _ (listMax_mem (List.ne_nil_of_mem ha))) (le_listMax ha)

/-! ### Indexed membership in a dropped suffix -/

theorem getD_mem_drop {l : List ℚ} {m k : ℕ} (h1 : m ≤ k) (h2 : k < l.length) :
    l.getD k 0 ∈ l.drop m := by
  obtain ⟨j, rfl⟩ : ∃ j, k = m + j := ⟨k - m, by omega⟩
  have hk : j < (l.drop m).length := by
    rw [List.length_drop]
    omega
  have h3 : (l.drop m)[j] = l[m + j] := List.getElem_drop l
  rw [List.getD_eq_getElem?_getD, List.getElem?_eq_getElem h2]
  simp only [Option.getD_some]
  rw [← h3]
  exact List.getElem_mem hk

theorem mem_drop_exists {l : List ℚ} {m : ℕ} {x : ℚ} (hx : x ∈ l.drop m) :
    ∃ k, m ≤ k ∧ k < l.length ∧ l.getD k 0 = x := by
  obtain ⟨i, hi, hix⟩ := List.mem_iff_getElem.mp hx
  have hlen : i < l.length - m := by
    simpa [List.length_drop] using hi
  refine ⟨m + i, Nat.le_add_right m i, by omega, ?_⟩
  have : (l.drop m)[i] = l[m + i] := List.getElem_drop l
  rw [List.getD_eq_getElem?_getD, List.getElem?_eq_getElem (by omega : m + i < l.length)]
  simp [← this, hix]

/-! ### Correctness of the monotonic-deque sliding extrema -/

/-- Back-eviction test of the minimum deque: the back entry is dominated by
the newly arriving value. -/
def backDom (v : ℚ) : ℕ × ℚ → Bool := fun e => decide (v ≤ e.2)

/-- Front-eviction test: the entry's position falls outside the trailing
window ending at position `n`. -/
def staleAt (period n : ℕ) : ℕ × ℚ → Bool := fun e => decide (e.1 + period ≤ n)

theorem minStep_eq (period n : ℕ) (v : ℚ) (d : List (ℕ × ℚ)) :
    minStep period n v d =
      ((d.reverse.dropWhile (backDom v)).reverse ++ [(n, v)]).dropWhile (staleAt period n) :=
  rfl

/-- The invariant tying the minimum deque to the processed history: entries
are strictly increasing in position and value, each lies inside the current
trailing window and stores its history value, and every window position is
dominated by a deque entry at the same or a later position. -/
structure MinInv (period : ℕ) (h : List ℚ) (d : List (ℕ × ℚ)) : Prop where
  ord : d.Pairwise (fun a b => a.1 < b.1 ∧ a.2 < b.2)
  mem : ∀ e ∈ d, e.1 < h.length ∧ h.length ≤ e.1 + period ∧ h.getD e.1 0 = e.2
  cov : ∀ k, k < h.length → h.length ≤ k + period →
    ∃ e ∈ d, k ≤ e.1 ∧ e.2 ≤ h.getD k 0

theorem minInv_nil (period : ℕ) : MinInv period [] [] :=
  ⟨List.Pairwise.nil, fun e he => absurd he (List.not_mem_nil e),
   fun k hk _ => absurd hk (Nat.not_lt_zero k)⟩

theorem getD_append_left {h : List ℚ} {v : ℚ} {k : ℕ} (hk : k < h.length) :
    (h ++ [v]).getD k 0 = h.getD k 0 := by
  rw [List.getD_eq_getElem?_getD, List.getD_eq_getElem?_getD, List.getElem?_append_left hk]

theorem getD_append_self {h : List ℚ} {v : ℚ} :
    (h ++ [v]).getD h.length 0 = v := by
  rw [List.getD_eq_getElem?_getD, List.getElem?_concat_length]
  rfl

theorem backDom_mono {v : ℚ} {d : List (ℕ × ℚ)}
    (hord : d.Pairwise (fun a b => a.1 < b.1 ∧ a.2 < b.2)) :
    d.Pairwise (fun a b => backDom v a = true → backDom v b = true) := by
  refine hord.imp ?_
  intro a b hab hpa
  simp only [backDom, decide_eq_true_eq] at hpa ⊢
  exact le_trans hpa (le_of_lt hab.2)

/-- One deque update preserves the minimum-side invariant. -/
theorem minStep_inv {period : ℕ} (hp : 0 < period) {h : List ℚ} {d : List (ℕ × ℚ)}
    (inv : MinInv period h d) (v : ℚ) :
    MinInv period (h ++ [v]) (minStep period h.length v d) ∧
      (h.length, v) ∈ minStep period h.length v d := by
  have hmono := backDom_mono (v := v) inv.ord
  have hred : minStep period h.length v d =
      (d.takeWhile (fun e => !backDom v e) ++ [(h.length, v)]).dropWhile
        (staleAt period h.length) := by
    rw [minStep_eq, dropWhile_rev_eq_takeWhile (backDom v) d hmono]
  have hd1mem : ∀ e ∈ d.takeWhile (fun e => !backDom v e), e ∈ d ∧ e.2 < v := by
    intro e he
    refine ⟨List.Sublist.mem he (List.takeWhile_sublist _), ?_⟩
    have h2 := List.mem_takeWhile_imp he
    simp only [Bool.not_eq_true', backDom, decide_eq_false_iff_not] at h2
    exact not_le.mp h2
  have hd2ord : (d.takeWhile (fun e => !backDom v e) ++ [(h.length, v)]).Pairwise
      (fun a b => a.1 < b.1 ∧ a.2 < b.2) := by
    rw [List.pairwise_append]
    refine ⟨List.Pairwise.sublist (List.takeWhile_sublist _) inv.ord, by simp, ?_⟩
    intro e he f hf
    rw [List.mem_singleton] at hf
    subst hf
    obtain ⟨hed, hev⟩ := hd1mem e he
    exact ⟨(inv.mem e hed).1, hev⟩
  have hanti : (d.takeWhile (fun e => !backDom v e) ++ [(h.length, v)]).Pairwise
      (fun a b => staleAt period h.length b = true → staleAt period h.length a = true) := by
    refine hd2ord.imp ?_
    intro a b hab hsb
    simp only [staleAt, decide_eq_true_eq] at hsb ⊢
    omega
  have hstale_nv : staleAt period h.length (h.length, v) = false := by
    simp only [staleAt, decide_eq_false_iff_not]
    omega
  have hnv_res : (h.length, v) ∈ minStep period h.length v d := by
    rw [hred, List.dropWhile_append]
    by_cases hemp :
        ((d.takeWhile (fun e => !backDom v e)).dropWhile (staleAt period h.length)).isEmpty
    · rw [if_pos hemp, List.dropWhile_cons, hstale_nv]
      simp
    · rw [if_neg hemp]
      exact List.mem_append_right _ (List.mem_singleton.mpr rfl)
  have hresns : ∀ e ∈ minStep period h.length v d, staleAt period h.length e = false := by
    rw [hred]
    exact forall_not_of_dropWhile_anti _ _ hanti
  have hressub : ∀ e ∈ minStep period h.length v d,
      e ∈ d.takeWhile (fun e => !backDom v e) ++ [(h.length, v)] := by
    rw [hred]
    intro e he
    exact List.Sublist.mem he (List.dropWhile_sublist _)
  refine ⟨⟨?_, ?_, ?_⟩, hnv_res⟩
  · rw [hred]
    exact List.Pairwise.sublist (List.dropWhile_sublist _) hd2ord
  · intro e he
    have hns : ¬ (e.1 + period ≤ h.length) := by
      simpa [staleAt] using hresns e he
    rcases List.mem_append.mp (hressub e he) with he1 | he2
    · obtain ⟨hed, _⟩ := hd1mem e he1
      obtain ⟨h1, _, h3⟩ := inv.mem e hed
      refine ⟨by simp; omega, by simp; omega, ?_⟩
      rw [getD_append_left h1]
      exact h3
    · rw [List.mem_singleton] at he2
      subst he2
      refine ⟨by simp, by simp; omega, getD_append_self⟩
  · intro k hk1 hk2
    simp only [List.length_append, List.length_singleton] at hk1 hk2
    by_cases hkn : k = h.length
    · subst hkn
      exact ⟨(h.length, v), hnv_res, le_refl _, by rw [getD_append_self]⟩
    · have hk1' : k < h.length := by omega
      obtain ⟨e, hed, hke, hev⟩ := inv.cov k hk1' (by omega)
      rw [getD_append_left hk1']
      by_cases hvc : v ≤ e.2
      · exact ⟨(h.length, v), hnv_res, by omega, le_trans hvc hev⟩
      · have hpbe : backDom v e = false := by
          simp only [backDom, decide_eq_false_iff_not]
          exact hvc
        have he1 : e ∈ d.takeWhile (fun e => !backDom v e) :=
          mem_takeWhile_not_of_mono (backDom v) d hmono e hed hpbe
        have he2 : e ∈ d.takeWhile (fun e => !backDom v e) ++ [(h.length, v)] :=
          List.mem_append_left _ he1
        have hestale : staleAt period h.length e = false := by
          simp only [staleAt, decide_eq_false_iff_not]
          omega
        refine ⟨e, ?_, hke, hev⟩
        rw [hred]
        exact mem_dropWhile_of_anti _ _ hanti e he2 hestale

/-- Under the invariant the front of the minimum deque holds the minimum of
the trailing window. -/
theorem minInv_headD {period : ℕ} {h : List ℚ} {d : List (ℕ × ℚ)}
    (inv : MinInv period h d) (hne : d ≠ []) :
    (d.headD (0, 0)).2 = listMin (h.drop (h.length - period)) := by
  cases d with
  | nil => exact absurd rfl hne
  | cons hd tl =>
      obtain ⟨h1, h2, h3⟩ := inv.mem hd (List.mem_cons_self hd tl)
      have hhead : ∀ f ∈ tl, hd.2 < f.2 := by
        intro f hf
        exact ((List.pairwise_cons.mp inv.ord).1 f hf).2
      have hmemw : hd.2 ∈ h.drop (h.length - period) := by
        rw [← h3]
        exact getD_mem_drop (by omega) h1
      have hmin : ∀ x ∈ h.drop (h.length - period), hd.2 ≤ x := by
        intro x hx
        obtain ⟨k, hk1, hk2, hk3⟩ := mem_drop_exists hx
        obtain ⟨e, hed, hke, hev⟩ := inv.cov k hk2 (by omega)
        have hde : hd.2 ≤ e.2 := by
          rcases List.mem_cons.mp hed with rfl | hetl
          · exact le_refl _
          · exact le_of_lt (hhead e hetl)
        rw [← hk3]
        exact le_trans hde hev
      exact (listMin_eq_of hmemw hmin).symm

/-! ### The maximum deque is the minimum deque on negated values -/

/-- Negate the value component of a deque entry. -/
def negEntry (e : ℕ × ℚ) : ℕ × ℚ := (e.1, -e.2)

theorem negEntry_negEntry (e : ℕ × ℚ) : negEntry (negEntry e) = e := by
  simp [negEntry]

theorem maxStep_eq_neg (period n : ℕ) (v : ℚ) (d : List (ℕ × ℚ)) :
    maxStep period n v d = (minStep period n (-v) (d.map negEntry)).map negEntry := by
  have hback : (fun e : ℕ × ℚ => decide (-v ≤ e.2)) ∘ negEntry
      = fun e : ℕ × ℚ => decide (e.2 ≤ v) := by
    funext e
    simp [negEntry]
  have hstale : (fun e : ℕ × ℚ => decide (e.1 + period ≤ n)) ∘ negEntry
      = fun e : ℕ × ℚ => decide (e.1 + period ≤ n) := by
    funext e
    simp [negEntry]
  have hid : negEntry ∘ negEntry = id := funext negEntry_negEntry
  unfold maxStep minStep
  rw [← List.map_reverse, List.dropWhile_map, hback, ← List.map_reverse,
    show [((n : ℕ), -v)] = [((n : ℕ), v)].map negEntry from rfl,
    ← List.map_append, List.dropWhile_map, hstale, List.map_map, hid, List.map_id]

theorem headD_map_negEntry (l : List (ℕ × ℚ)) :
    ((l.map negEntry).headD (0, 0)).2 = -((l.headD (0, 0)).2) := by
  cases l <;> simp [negEntry]

theorem foldl_min_map_neg : ∀ (t : List ℚ) (a : ℚ),
    (t.map (fun x => -x)).foldl min (-a) = -(t.foldl max a)
  | [], _ => rfl
  | b :: t, a => by
      rw [List.map_cons, List.foldl_cons, List.foldl_cons, min_neg_neg,
        foldl_min_map_neg t (max a b)]

theorem listMin_map_neg (l : List ℚ) :
    listMin (l.map (fun x => -x)) = -(listMax l) := by
  cases l with
  | nil => simp [listMin, listMax]
  | cons a t =>
      show (t.map (fun x => -x)).foldl min (-a) = -(t.foldl max a)
      exact foldl_min_map_neg t a

/-! ### The deque run refines the naive recompute-per-step reference -/

theorem run_eq_naiveAux {period : ℕ} (hp : 0 < period) :
    ∀ (vs h : List ℚ) (s : SlidingExtrema), s.period = period →
      MinInv period h s.minDeque →
      MinInv period (h.map (fun x => -x)) (s.maxDeque.map negEntry) →
      s.run h.length vs = naiveAux period h vs
  | [], _, _, _, _, _ => rfl
  | v :: rest, h, s, hsp, invmin, invmax => by
      obtain ⟨invmin', hmemmin⟩ := minStep_inv hp invmin v
      have hlenneg : (h.map (fun x => -x)).length = h.length := List.length_map h _
      obtain ⟨invmax', hmemmax⟩ := minStep_inv hp invmax (-v)
      rw [hlenneg] at invmax' hmemmax
      have hmapapp : (h.map (fun x => -x)) ++ [-v] = (h ++ [v]).map (fun x => -x) := by
        rw [List.map_append]
        rfl
      rw [hmapapp] at invmax'
      have hout1 : ((minStep period h.length v s.minDeque).headD (0, 0)).2
          = listMin ((h ++ [v]).drop ((h ++ [v]).length - period)) := by
        have := minInv_headD invmin' (List.ne_nil_of_mem hmemmin)
        simpa using this
      have hout2 : ((maxStep period h.length v s.maxDeque).headD (0, 0)).2
          = listMax ((h ++ [v]).drop ((h ++ [v]).length - period)) := by
        rw [maxStep_eq_neg, headD_map_negEntry]
        have hhd := minInv_headD invmax' (List.ne_nil_of_mem hmemmax)
        rw [hhd, List.length_map, ← List.map_drop, listMin_map_neg, neg_neg]
      have hrec : (SlidingExtrema.mk period
            (minStep period h.length v s.minDeque)
            (maxStep period h.length v s.maxDeque)).run (h.length + 1) rest
          = naiveAux period (h ++ [v]) rest := by
        have hlen' : (h ++ [v]).length = h.length + 1 := by simp
        have := run_eq_naiveAux hp rest (h ++ [v])
          (SlidingExtrema.mk period
            (minStep period h.length v s.minDeque)
            (maxStep period h.length v s.maxDeque)) rfl
          invmin'
          (by
            show MinInv period ((h ++ [v]).map (fun x => -x))
              ((maxStep period h.length v s.maxDeque).map negEntry)
            rw [maxStep_eq_neg, List.map_map,
              show negEntry ∘ negEntry = id from funext negEntry_negEntry, List.map_id]
            exact invmax')
        rw [hlen'] at this
        exact this
      show ((SlidingExtrema.update s h.length v).1 ::
          (SlidingExtrema.update s h.length v).2.run (h.length + 1) rest)
        = naiveAux period h (v :: rest)
      rw [SlidingExtrema.update, naiveAux]
      simp only [hsp]
      rw [hout1, hout2]
      exact congrArg _ hrec

/-- Starting from a fresh extrema state, the deque run coincides with the
naive recompute-per-step reference. -/
theorem extremaInit_run_eq_naive {period : ℕ} (hp : 0 < period) (vs : List ℚ) :
    (SlidingExtrema.init period).run 0 vs = naiveExtrema period vs := by
  have h := run_eq_naiveAux hp vs [] (SlidingExtrema.init period) rfl (minInv_nil period)
    (by
      show MinInv period (([] : List ℚ).map (fun x => -x)) (([] : List (ℕ × ℚ)).map negEntry)
      exact minInv_nil period)
  exact h

/-! ### Pipeline structure lemmas -/

/-- The batch pipeline is the cascade run followed by the extrema/normalizer
run, zipped positionally. -/
theorem runList_decomp : ∀ (vs : List ℚ) (n : ℕ) (c : T3Cascade) (e : SlidingExtrema),
    (PipelineState.mk n c e).runList vs =
      List.zipWith (fun v mm => Normalizer.compute v mm.1 mm.2)
        (c.run vs) (e.run n (c.run vs))
  | [], _, _, _ => rfl
  | x :: rest, n, c, e => by
      simp only [PipelineState.runList, PipelineState.step, T3Cascade.run,
        SlidingExtrema.run, List.zipWith]
      exact congrArg _ (runList_decomp rest (n + 1) (c.update x).2
        (e.update n (c.update x).1).2)

theorem runList_length : ∀ (vs : List ℚ) (st : PipelineState),
    (st.runList vs).length = vs.length
  | [], _ => rfl
  | x :: rest, st => by
      simp only [PipelineState.runList, List.length_cons]
      exact congrArg Nat.succ (runList_length rest (st.step x).2)

theorem t3cascade_run_length : ∀ (vs : List ℚ) (c : T3Cascade),
    (c.run vs).length = vs.length
  | [], _ => rfl
  | x :: rest, c => by
      simp only [T3Cascade.run, List.length_cons]
      exact congrArg Nat.succ (t3cascade_run_length rest (c.update x).2)

theorem naiveAux_length : ∀ (vs h : List ℚ) (period : ℕ),
    (naiveAux period h vs).length = vs.length
  | [], _, _ => rfl
  | v :: rest, h, period => by
      simp only [naiveAux, List.length_cons]
      exact congrArg Nat.succ (naiveAux_length rest (h ++ [v]) period)

theorem zipWith_getD {f : ℚ → ℚ × ℚ → ℚ} :
    ∀ (as : List ℚ) (bs : List (ℚ × ℚ)) (i : ℕ), i < as.length → i < bs.length →
      (List.zipWith f as bs).getD i 0 = f (as.getD i 0) (bs.getD i (0, 0))
  | a :: as, b :: bs, 0, _, _ => rfl
  | a :: as, b :: bs, i + 1, hi1, hi2 => by
      simp only [List.zipWith, List.getD_cons_succ]
      exact zipWith_getD as bs i (by simpa using hi1) (by simpa using hi2)

/-- Each entry of the naive reference is the pair (min, max) of a window that
contains the sample processed at that step. -/
theorem naiveAux_getD_spec (period : ℕ) (hp : 0 < period) :
    ∀ (vs h : List ℚ) (i : ℕ), i < vs.length →
      ∃ w : List ℚ, vs.getD i 0 ∈ w ∧
        (naiveAux period h vs).getD i (0, 0) = (listMin w, listMax w)
  | v :: rest, h, 0, _ => by
      refine ⟨(h ++ [v]).drop ((h ++ [v]).length - period), ?_, rfl⟩
      have hv : (h ++ [v]).getD h.length 0 = v := getD_append_self
      have hlen : (h ++ [v]).length = h.length + 1 := by simp
      have hmem : (h ++ [v]).getD h.length 0 ∈ (h ++ [v]).drop ((h ++ [v]).length - period) := by
        refine getD_mem_drop ?_ ?_
        · rw [hlen]
          omega
        · rw [hlen]
          omega
      rw [hv] at hmem
      exact hmem
  | v :: rest, h, i + 1, hi => by
      simp only [naiveAux, List.getD_cons_succ]
      exact naiveAux_getD_spec period hp rest (h ++ [v]) i (by simpa using hi)

/-! ### Constant input: the cascade reproduces the constant immediately -/

theorem ema_update_const : ∀ (s : EmaStage) (k : ℚ),
    (s.prev = none ∨ s.prev = some k) →
      s.update k = (k, ⟨s.alpha, some k⟩)
  | ⟨_, none⟩, _, _ => rfl
  | ⟨a, some p⟩, k, h => by
      have hp : p = k := by
        rcases h with h | h
        · exact absurd h (by simp)
        · simpa using h
      subst hp
      simp only [EmaStage.update]
      have hy : a * p + (1 - a) * p = p := by ring
      rw [hy]

/-- A cascade state poised to reproduce a constant `k`: the combination
coefficients sum to one and every register is unseeded or already at `k`. -/
structure ConstReady (c : T3Cascade) (k : ℚ) : Prop where
  sum1 : c.c1 + c.c2 + c.c3 + c.c4 = 1
  r1 : c.s1.prev = none ∨ c.s1.prev = some k
  r2 : c.s2.prev = none ∨ c.s2.prev = some k
  r3 : c.s3.prev = none ∨ c.s3.prev = some k
  r4 : c.s4.prev = none ∨ c.s4.prev = some k
  r5 : c.s5.prev = none ∨ c.s5.prev = some k
  r6 : c.s6.prev = none ∨ c.s6.prev = some k

theorem constReady_init (t3_period : ℤ) (vf k : ℚ) :
    ConstReady (T3Cascade.init t3_period vf) k :=
  ⟨by show -(vf ^ 3) + (3 * vf ^ 2 + 3 * vf ^ 3) + (-6 * vf ^ 2 - 3 * vf - 3 * vf ^ 3)
        + (1 + 3 * vf + vf ^ 3 + 3 * vf ^ 2) = 1
      ring,
   Or.inl rfl, Or.inl rfl, Or.inl rfl, Or.inl rfl, Or.inl rfl, Or.inl rfl⟩

theorem cascade_update_const {c : T3Cascade} {k : ℚ} (h : ConstReady c k) :
    c.update k = (k,
      { c with s1 := ⟨c.s1.alpha, some k⟩, s2 := ⟨c.s2.alpha, some k⟩,
               s3 := ⟨c.s3.alpha, some k⟩, s4 := ⟨c.s4.alpha, some k⟩,
               s5 := ⟨c.s5.alpha, some k⟩, s6 := ⟨c.s6.alpha, some k⟩ }) := by
  have hsum : c.c1 * k + c.c2 * k + c.c3 * k + c.c4 * k = k := by
    have hk : c.c1 * k + c.c2 * k + c.c3 * k + c.c4 * k
        = (c.c1 + c.c2 + c.c3 + c.c4) * k := by ring
    rw [hk, h.sum1, one_mul]
  simp only [T3Cascade.update, ema_update_const c.s1 k h.r1,
    ema_update_const c.s2 k h.r2, ema_update_const c.s3 k h.r3,
    ema_update_const c.s4 k h.r4, ema_update_const c.s5 k h.r5,
    ema_update_const c.s6 k h.r6, hsum]

theorem constReady_step {c : T3Cascade} {k : ℚ} (h : ConstReady c k) :
    ConstReady (c.update k).2 k := by
  rw [cascade_update_const h]
  exact ⟨h.sum1, Or.inr rfl, Or.inr rfl, Or.inr rfl, Or.inr rfl, Or.inr rfl, Or.inr rfl⟩

theorem t3cascade_run_const : ∀ (m : ℕ) (c : T3Cascade) (k : ℚ), ConstReady c k →
    c.run (List.replicate m k) = List.replicate m k
  | 0, _, _, _ => rfl
  | m + 1, c, k, h => by
      rw [List.replicate_succ]
      show (c.update k).1 :: (c.update k).2.run (List.replicate m k)
        = k :: List.replicate m k
      rw [t3cascade_run_const m (c.update k).2 k (constReady_step h),
        cascade_update_const h]

/-! ### Constant history: the window is degenerate and the output is 1/2 -/

theorem listMin_replicate (t : ℕ) (k : ℚ) (ht : 0 < t) :
    listMin (List.replicate t k) = k := by
  refine listMin_eq_of (List.mem_replicate.mpr ⟨by omega, rfl⟩) ?_
  intro x hx
  rw [List.eq_of_mem_replicate hx]

theorem listMax_replicate (t : ℕ) (k : ℚ) (ht : 0 < t) :
    listMax (List.replicate t k) = k := by
  refine listMax_eq_of (List.mem_replicate.mpr ⟨by omega, rfl⟩) ?_
  intro x hx
  rw [List.eq_of_mem_replicate hx]

theorem naiveAux_replicate {period : ℕ} (hp : 0 < period) (k : ℚ) :
    ∀ (m j : ℕ), naiveAux period (List.replicate j k) (List.replicate m k)
      = List.replicate m (k, k)
  | 0, _ => rfl
  | m + 1, j => by
      rw [List.replicate_succ]
      show ((listMin ((List.replicate j k ++ [k]).drop
          ((List.replicate j k ++ [k]).length - period)),
        listMax ((List.replicate j k ++ [k]).drop
          ((List.replicate j k ++ [k]).length - period))) ::
        naiveAux period (List.replicate j k ++ [k]) (List.replicate m k))
        = (k, k) :: List.replicate m (k, k)
      have happ : List.replicate j k ++ [k] = List.replicate (j + 1) k := by
        rw [← List.replicate_succ']
      have hdrop : (List.replicate (j + 1) k).drop ((List.replicate (j + 1) k).length - period)
          = List.replicate ((j + 1) - ((j + 1) - period)) k := by
        rw [List.drop_replicate]
        congr 1
        rw [List.length_replicate]
      have hcnt : 0 < (j + 1) - ((j + 1) - period) := by omega
      rw [happ, hdrop, listMin_replicate _ k hcnt, listMax_replicate _ k hcnt,
        naiveAux_replicate hp k m (j + 1)]

theorem zipWith_norm_replicate : ∀ (m : ℕ) (k : ℚ),
    List.zipWith (fun v mm => Normalizer.compute v mm.1 mm.2)
      (List.replicate m k) (List.replicate m (k, k)) = List.replicate m (1 / 2)
  | 0, _ => rfl
  | m + 1, k => by
      simp only [List.replicate_succ, List.zipWith]
      rw [zipWith_norm_replicate m k]
      congr 1
      show Normalizer.compute k k k = 1 / 2
      rw [Normalizer.compute, if_neg (lt_irrefl k)]

/-! ### The claims -/

/-- C1: for every valid parameter triple and every input series, including the
empty one, the pipeline succeeds and produces an output series of exactly the
same length as the input. -/
theorem pipeline_length_preservation (src : List ℚ) (period t3_period : ℤ) (vf : ℚ)
    (hv : validParams period t3_period vf) :
    ∃ out, NORMALIZED_T3_cython src period t3_period vf = Except.ok out ∧
      out.length = src.length := by
  rw [NORMALIZED_T3_cython, if_pos hv]
  exact ⟨_, rfl, runList_length src _⟩

theorem pipeline_length_preservation_witness :
    validParams 200 2 (7 / 10) ∧
      ∃ out, NORMALIZED_T3_cython [] 200 2 (7 / 10) = Except.ok out ∧
        out.length = ([] : List ℚ).length :=
  ⟨by norm_num [validParams],
   pipeline_length_preservation [] 200 2 (7 / 10) (by norm_num [validParams])⟩

/-- C2: whenever the extrema window at a position is non-degenerate
(`max > min`) the output sample lies in `[0, 1]`; whenever it is degenerate
(`min = max`) the output sample is exactly `1/2`.  The window extrema are the
naive min/max of the trailing window of the T3-filtered stream. -/
theorem pipeline_output_bounds (src : List ℚ) (period : ℕ) (t3_period : ℤ)
    (vf : ℚ) (i : ℕ) (out : ℚ) (mm : ℚ × ℚ) (hp : 0 < period) (hi : i < src.length)
    (hout : out = ((PipelineState.init period t3_period vf).runList src).getD i 0)
    (hmm : mm = (naiveExtrema period ((T3Cascade.init t3_period vf).run src)).getD i (0, 0)) :
    (mm.1 < mm.2 → 0 ≤ out ∧ out ≤ 1) ∧ (mm.1 = mm.2 → out = 1 / 2) := by
  subst hout hmm
  have hlen1 : ((T3Cascade.init t3_period vf).run src).length = src.length :=
    t3cascade_run_length src _
  have hlen2 : (naiveExtrema period ((T3Cascade.init t3_period vf).run src)).length
      = src.length := by
    rw [naiveExtrema, naiveAux_length, hlen1]
  have hdec : (PipelineState.init period t3_period vf).runList src
      = List.zipWith (fun v mm => Normalizer.compute v mm.1 mm.2)
        ((T3Cascade.init t3_period vf).run src)
        (naiveExtrema period ((T3Cascade.init t3_period vf).run src)) := by
    have h1 := runList_decomp src 0 (T3Cascade.init t3_period vf)
      (SlidingExtrema.init period)
    rw [extremaInit_run_eq_naive hp] at h1
    exact h1
  obtain ⟨w, hwmem, hwspec⟩ := naiveAux_getD_spec period hp
    ((T3Cascade.init t3_period vf).run src) [] i (by omega)
  have hwspec' : (naiveExtrema period ((T3Cascade.init t3_period vf).run src)).getD i (0, 0)
      = (listMin w, listMax w) := hwspec
  rw [hdec, zipWith_getD _ _ i (by omega) (by omega), hwspec']
  dsimp only
  have h1 : listMin w ≤ ((T3Cascade.init t3_period vf).run src).getD i 0 := listMin_le hwmem
  have h2 : ((T3Cascade.init t3_period vf).run src).getD i 0 ≤ listMax w := le_listMax hwmem
  constructor
  · intro hlt
    rw [Normalizer.compute, if_pos hlt]
    constructor
    · exact div_nonneg (by linarith) (by linarith)
    · rw [div_le_one (by linarith)]
      linarith
  · intro heq
    rw [Normalizer.compute, if_neg]
    rw [heq]
    exact lt_irrefl _

theorem pipeline_output_bounds_witness :
    (((naiveExtrema 2 ((T3Cascade.init 2 (7 / 10)).run [1, 4])).getD 1 (0, 0)).1 <
        ((naiveExtrema 2 ((T3Cascade.init 2 (7 / 10)).run [1, 4])).getD 1 (0, 0)).2 →
      0 ≤ ((PipelineState.init 2 2 (7 / 10)).runList [1, 4]).getD 1 0 ∧
        ((PipelineState.init 2 2 (7 / 10)).runList [1, 4]).getD 1 0 ≤ 1) ∧
    (((naiveExtrema 2 ((T3Cascade.init 2 (7 / 10)).run [1, 4])).getD 1 (0, 0)).1 =
        ((naiveExtrema 2 ((T3Cascade.init 2 (7 / 10)).run [1, 4])).getD 1 (0, 0)).2 →
      ((PipelineState.init 2 2 (7 / 10)).runList [1, 4]).getD 1 0 = 1 / 2) :=
  pipeline_output_bounds [1, 4] 2 2 (7 / 10) 1 _ _ (by norm_num) (by norm_num) rfl rfl

/-- C3: the Normalizer returns `(value - min) / (max - min)` whenever
`max > min` and exactly `1/2` whenever `max = min`; it is a total pure
function of its three arguments. -/
theorem normalizer_spec (value mn mx : ℚ) :
    (mn < mx → Normalizer.compute value mn mx = (value - mn) / (mx - mn)) ∧
    (mn = mx → Normalizer.compute value mn mx = 1 / 2) := by
  constructor
  · intro h
    rw [Normalizer.compute, if_pos h]
  · intro h
    rw [Normalizer.compute, if_neg]
    rw [h]
    exact lt_irrefl mx

theorem normalizer_spec_witness :
    Normalizer.compute 3 1 2 = (3 - 1) / (2 - 1) ∧ Normalizer.compute 3 1 1 = 1 / 2 :=
  ⟨(normalizer_spec 3 1 2).1 (by norm_num), (normalizer_spec 3 1 1).2 rfl⟩

/-- C4: each EmaStage update returns `alpha*x + (1-alpha)*prev_y` where
`prev_y` is the previous call's output (the register always holds the last
output), except on the first call, where the output is `x` itself; `alpha`
is `2/(t3_period+1)` at construction. -/
theorem ema_stage_recurrence (s : EmaStage) (x p : ℚ) (t3_period : ℤ) :
    (EmaStage.init t3_period).alpha = 2 / ((t3_period : ℚ) + 1) ∧
    (s.prev = none → (s.update x).1 = x) ∧
    (s.prev = some p → (s.update x).1 = s.alpha * x + (1 - s.alpha) * p) ∧
    (s.update x).2.prev = some ((s.update x).1) := by
  obtain ⟨a, _ | q⟩ := s
  · exact ⟨rfl, fun _ => rfl, fun hc => absurd hc (by simp), rfl⟩
  · refine ⟨rfl, fun hc => absurd hc (by simp), fun hc => ?_, rfl⟩
    obtain rfl : q = p := by simpa using hc
    rfl

theorem ema_stage_recurrence_witness :
    ((⟨1 / 2, some 3⟩ : EmaStage).update 2).1 = (1 / 2) * 2 + (1 - 1 / 2) * 3 :=
  (ema_stage_recurrence ⟨1 / 2, some 3⟩ 2 3 2).2.2.1 rfl

/-- C5: a cascade update chains the six EMA stages in order and combines
the last four stage outputs with the stored coefficients; the coefficients
equal the §4.2 polynomials of the volume factor at construction and are
left untouched by updates. -/
theorem t3cascade_formula (c : T3Cascade) (x : ℚ) (t3_period : ℤ) (vf : ℚ) :
    (c.update x).1 =
      c.c1 * (c.s6.update (c.s5.update (c.s4.update (c.s3.update
          (c.s2.update (c.s1.update x).1).1).1).1).1).1
        + c.c2 * (c.s5.update (c.s4.update (c.s3.update
          (c.s2.update (c.s1.update x).1).1).1).1).1
        + c.c3 * (c.s4.update (c.s3.update (c.s2.update (c.s1.update x).1).1).1).1
        + c.c4 * (c.s3.update (c.s2.update (c.s1.update x).1).1).1 ∧
    ((c.update x).2.c1 = c.c1 ∧ (c.update x).2.c2 = c.c2 ∧
      (c.update x).2.c3 = c.c3 ∧ (c.update x).2.c4 = c.c4) ∧
    ((T3Cascade.init t3_period vf).c1 = -(vf ^ 3) ∧
      (T3Cascade.init t3_period vf).c2 = 3 * vf ^ 2 + 3 * vf ^ 3 ∧
      (T3Cascade.init t3_period vf).c3 = -6 * vf ^ 2 - 3 * vf - 3 * vf ^ 3 ∧
      (T3Cascade.init t3_period vf).c4 = 1 + 3 * vf + vf ^ 3 + 3 * vf ^ 2) :=
  ⟨rfl, ⟨rfl, rfl, rfl, rfl⟩, rfl, rfl, rfl, rfl⟩

/-- C6: the monotonic-deque SlidingExtrema, run from a fresh state over any
sequence of values with any positive `period`, returns after each update
exactly the (minimum, maximum) of the last `min(period, samples_seen)`
values, identically to the naive recompute-per-step reference. -/
theorem sliding_extrema_matches_naive (period : ℕ) (vs : List ℚ) (hp : 0 < period) :
    (SlidingExtrema.init period).run 0 vs = naiveExtrema period vs :=
  extremaInit_run_eq_naive hp vs

theorem sliding_extrema_matches_naive_witness :
    0 < 3 ∧ (SlidingExtrema.init 3).run 0 [5, 2, 7, 1] = naiveExtrema 3 [5, 2, 7, 1] :=
  ⟨by norm_num, sliding_extrema_matches_naive 3 [5, 2, 7, 1] (by norm_num)⟩

/-- C7: out-of-range parameters (`period ≤ 0`, `t3_period ≤ 0`, or
`volume_factor` outside `[0,1]`) make the pipeline fail with InvalidParameter
before any sample is processed and with no partial output; for parameters
within the constraints the computation always succeeds, whatever the input
series. -/
theorem parameter_validation (src : List ℚ) (period t3_period : ℤ) (vf : ℚ) :
    ((period ≤ 0 ∨ t3_period ≤ 0 ∨ vf < 0 ∨ 1 < vf) ↔ ¬ validParams period t3_period vf) ∧
    (¬ validParams period t3_period vf →
      NORMALIZED_T3_cython src period t3_period vf = Except.error TError.invalidParameter) ∧
    (validParams period t3_period vf →
      ∃ out, NORMALIZED_T3_cython src period t3_period vf = Except.ok out) := by
  refine ⟨?_, ?_, ?_⟩
  · simp only [validParams, not_and_or, not_lt, not_le]
  · intro h
    rw [NORMALIZED_T3_cython, if_neg h]
  · intro h
    exact ⟨_, by rw [NORMALIZED_T3_cython, if_pos h]⟩

theorem parameter_validation_witness :
    NORMALIZED_T3_cython [1] 0 2 (7 / 10) = Except.error TError.invalidParameter ∧
      ∃ out, NORMALIZED_T3_cython [1] 200 2 (7 / 10) = Except.ok out :=
  ⟨(parameter_validation [1] 0 2 (7 / 10)).2.1 (by norm_num [validParams]),
   (parameter_validation [1] 200 2 (7 / 10)).2.2 (by norm_num [validParams])⟩

/-- C8: on a constant input series every T3 output equals the constant (the
cascade converges from the first sample, by first-value seeding), the extrema
window is degenerate (`min = max`) at every step, and every pipeline output
is exactly `1/2`. -/
theorem constant_input_midpoint (k : ℚ) (m : ℕ) (period : ℕ) (t3_period : ℤ) (vf : ℚ)
    (hp : 0 < period) :
    (T3Cascade.init t3_period vf).run (List.replicate m k) = List.replicate m k ∧
    naiveExtrema period (List.replicate m k) = List.replicate m (k, k) ∧
    (PipelineState.init period t3_period vf).runList (List.replicate m k)
      = List.replicate m (1 / 2) := by
  have hrun : (T3Cascade.init t3_period vf).run (List.replicate m k) = List.replicate m k :=
    t3cascade_run_const m _ k (constReady_init t3_period vf k)
  have hnaive : naiveExtrema period (List.replicate m k) = List.replicate m (k, k) :=
    naiveAux_replicate hp k m 0
  refine ⟨hrun, hnaive, ?_⟩
  have hdec := runList_decomp (List.replicate m k) 0 (T3Cascade.init t3_period vf)
    (SlidingExtrema.init period)
  rw [extremaInit_run_eq_naive hp, hrun, hnaive] at hdec
  rw [show PipelineState.init period t3_period vf
      = PipelineState.mk 0 (T3Cascade.init t3_period vf) (SlidingExtrema.init period) from rfl,
    hdec]
  exact zipWith_norm_replicate m k

theorem constant_input_midpoint_witness :
    0 < 2 ∧
      ((T3Cascade.init 2 (7 / 10)).run (List.replicate 3 5) = List.replicate 3 5 ∧
       naiveExtrema 2 (List.replicate 3 5) = List.replicate 3 (5, 5) ∧
       (PipelineState.init 2 2 (7 / 10)).runList (List.replicate 3 5)
         = List.replicate 3 (1 / 2)) :=
  ⟨by norm_num, constant_input_midpoint 5 3 2 2 (7 / 10) (by norm_num)⟩

/-- C9: the public wrapper `NORMALIZED_T3` returns exactly the value of the
underlying Cython entry point applied to the same four arguments in the same
order, with no transformation of input or result. -/
theorem wrapper_delegates_to_cython (src : List ℚ) (period t3_period : ℤ) (vf : ℚ) :
    NORMALIZED_T3 src period t3_period vf = NORMALIZED_T3_cython src period t3_period vf :=
  rfl

/-- C10: calling the wrapper with the parameters omitted uses the defaults
`period=200`, `t3_period=2`, `volume_factor=0.7` (exactly `7/10`). -/
theorem wrapper_default_parameters (src : List ℚ) :
    NORMALIZED_T3 src = NORMALIZED_T3 src 200 2 (7 / 10) :=
  rfl
